import Mathlib

/-!
Verification development for the MOTION2NX two-party secure-computation core.

Shallow embedding of the gate-graph execution engine: OT-extension flavors
(`ot_flavors.cpp`, `ot_provider.cpp`), BEAVY gates (`protocols/beavy/gate.cpp`),
the wire readiness state machine (`wire/wire.h`) and the FSS (DPF/DCF)
implementation (`fss/fss_uint64.cpp`).

Machine integers of width `w` are modelled as `ZMod (2 ^ w)`, whose ring
operations coincide with unsigned `+`, `-`, `*` modulo `2 ^ w`.  Packed bit
vectors and typed integer arrays are modelled as functions from index to
value; C++ loops `for i in [0, n): out[i] = f(i)` become Lean functions of
the index.  Fallible operations return the possible error message together
with the post state (a C++ `throw` happens before any mutation, so the state
is returned unchanged in the error case).
-/

namespace MOTION2NX

/-- The ring `Z / 2^w` of unsigned machine integers of bit width `w`. -/
abbrev Word (w : ℕ) := ZMod (2 ^ w)

/-! ## OT-extension flavors (`crypto/oblivious_transfer/ot_flavors.cpp`)

Claims C2 (ACOT output correlation) and C10 (GOT128 chosen-message OT).
-/

namespace OTFlavors

/-- `BasicOTReceiver::SendCorrections` (ot_flavors.cpp:67-75): the correction
bit sent for OT `i` is `choices_[i] ^ random_choices_[ot_id_ + i]`. -/
def correctionBit (realChoice randomChoice : Bool) : Bool :=
  xor realChoice randomChoice

/-- Modelled from the spec: the IKNP-style OT-extension setup
(`SendSetup` / `ReceiveSetup` compressing the transposed bit matrix; the
`BitMatrix::SenderTransposeAndEncrypt` / `ReceiverTransposeAndEncrypt`
routines are not part of the sources).  After setup the sender holds the two
random pads `y0`, `y1` per OT and the receiver's stored output
(`OTExtensionReceiverData::outputs_`) is the pad selected by its precomputed
random choice bit. -/
def iknpReceiverPad {α : Type} (y0 y1 : α) (randomChoice : Bool) : α :=
  if randomChoice then y1 else y0

/-- `ACOTSender<T>::ComputeOutputs`, `vector_size_ == 1` branch
(ot_flavors.cpp:295-341): for each OT the sender takes `y1` if the received
correction bit is set, else `y0`. -/
def acotSenderComputeOutputs {w : ℕ} (corrections : ℕ → Bool) (y0 y1 : ℕ → Word w)
    (i : ℕ) : Word w :=
  if corrections i then y1 i else y0 i

/-- `ACOTSender<T>::SendMessages`, `vector_size_ == 1` branch
(ot_flavors.cpp:343-364): `buffer[i] = correlations_[i] + y0_[i] + y1_[i]`. -/
def acotSenderMessage {w : ℕ} (correlations y0 y1 : ℕ → Word w) (i : ℕ) : Word w :=
  correlations i + y0 i + y1 i

/-- `ACOTReceiver<T>::ComputeOutputs`, `vector_size_ == 1` branch
(ot_flavors.cpp:384-424): if the real choice bit is set the output is
`sender_message[i] - outputs_[ot_id_ + i]`, otherwise the stored output. -/
def acotReceiverComputeOutputs {w : ℕ} (choices : ℕ → Bool)
    (senderMessage stored : ℕ → Word w) (i : ℕ) : Word w :=
  if choices i then senderMessage i - stored i else stored i

/-- `GOT128Sender::SendMessages` (ot_flavors.cpp:446-467): per OT `i` the two
transmitted blocks; when the correction bit is set the sender first computes
`diff = inputs_[2i] ^ inputs_[2i+1]` and masks the swapped inputs. -/
def got128SenderMessage (corrections : ℕ → Bool) (inputs : ℕ → ℕ) (y0 y1 : ℕ → ℕ)
    (i : ℕ) : ℕ × ℕ :=
  if corrections i then
    let diff := inputs (2 * i) ^^^ inputs (2 * i + 1)
    (inputs (2 * i) ^^^ (diff ^^^ y0 i), inputs (2 * i + 1) ^^^ (diff ^^^ y1 i))
  else
    (inputs (2 * i) ^^^ y0 i, inputs (2 * i + 1) ^^^ y1 i)

/-- `GOT128Receiver::ComputeOutputs` (ot_flavors.cpp:479-501): the receiver
selects the message half indicated by its precomputed random choice bit and
XORs its stored pad onto it. -/
def got128ReceiverComputeOutputs (randomChoices : ℕ → Bool) (message : ℕ → ℕ × ℕ)
    (stored : ℕ → ℕ) (i : ℕ) : ℕ :=
  (if randomChoices i then (message i).2 else (message i).1) ^^^ stored i

/-- XOR on `ℕ` commutes on the left; helper for block cancellation. -/
theorem natXorLeftComm (a b c : ℕ) : a ^^^ (b ^^^ c) = b ^^^ (a ^^^ c) := by
  rw [← Nat.xor_assoc, Nat.xor_comm a b, Nat.xor_assoc]

/-- XOR on `ℕ` cancels a repeated summand on the left. -/
theorem natXorCancelLeft (a b : ℕ) : a ^^^ (a ^^^ b) = b := by
  rw [← Nat.xor_assoc, Nat.xor_self, Nat.zero_xor]

end OTFlavors

open OTFlavors in
/-- C2: for an `ACOT<T>` batch with `vector_size = 1`, given the corrections
sent by `BasicOTReceiver::SendCorrections` and the IKNP setup pads, for every
OT `i` in the batch the receiver's output (`ACOTReceiver<T>::ComputeOutputs`)
equals the sender's output (`ACOTSender<T>::ComputeOutputs`) when the real
choice bit is 0, and the sender's output plus the `i`-th correlation modulo
`2 ^ w` when it is 1. -/
theorem acot_receiver_sender_correlation {w : ℕ} (numOts : ℕ)
    (choices randomChoices : ℕ → Bool) (correlations y0 y1 : ℕ → Word w)
    (corrections : ℕ → Bool) (stored : ℕ → Word w)
    (hcorr : ∀ i, corrections i = correctionBit (choices i) (randomChoices i))
    (hstored : ∀ i, stored i = iknpReceiverPad (y0 i) (y1 i) (randomChoices i)) :
    ∀ i, i < numOts →
      (choices i = false →
        acotReceiverComputeOutputs choices (acotSenderMessage correlations y0 y1) stored i
          = acotSenderComputeOutputs corrections y0 y1 i) ∧
      (choices i = true →
        acotReceiverComputeOutputs choices (acotSenderMessage correlations y0 y1) stored i
          = acotSenderComputeOutputs corrections y0 y1 i + correlations i) := by
  intro i _
  constructor <;> intro hx <;> cases hr : randomChoices i <;>
    simp [acotReceiverComputeOutputs, acotSenderComputeOutputs, acotSenderMessage,
      correctionBit, iknpReceiverPad, hcorr, hstored, hx, hr] <;> ring

namespace C2Data

def ch : ℕ → Bool := fun i => decide (i = 0)
def rc : ℕ → Bool := fun i => decide (i = 1)
def y0 : ℕ → Word 8 := fun i => (i : Word 8)
def y1 : ℕ → Word 8 := fun i => (i : Word 8) + 10
def corr : ℕ → Word 8 := fun _ => 3
def cs : ℕ → Bool := fun i => OTFlavors.correctionBit (ch i) (rc i)
def st : ℕ → Word 8 := fun i => OTFlavors.iknpReceiverPad (y0 i) (y1 i) (rc i)

end C2Data

open OTFlavors C2Data in
/-- Witness for C2 at a concrete two-OT batch over `Word 8`. -/
theorem acot_receiver_sender_correlation_witness :
    (∀ i, cs i = correctionBit (ch i) (rc i)) ∧
    (∀ i, st i = iknpReceiverPad (y0 i) (y1 i) (rc i)) ∧
    (ch 1 = false →
      acotReceiverComputeOutputs ch (acotSenderMessage corr y0 y1) st 1
        = acotSenderComputeOutputs cs y0 y1 1) ∧
    (ch 0 = true →
      acotReceiverComputeOutputs ch (acotSenderMessage corr y0 y1) st 0
        = acotSenderComputeOutputs cs y0 y1 0 + corr 0) :=
  ⟨fun _ => rfl, fun _ => rfl,
    (acot_receiver_sender_correlation 2 ch rc corr y0 y1 cs st (fun _ => rfl) (fun _ => rfl)
      1 (by norm_num)).1,
    (acot_receiver_sender_correlation 2 ch rc corr y0 y1 cs st (fun _ => rfl) (fun _ => rfl)
      0 (by norm_num)).2⟩

open OTFlavors in
/-- C10: for every OT in a `GOT128` batch, after corrections were sent and the
sender computed its message (`GOT128Sender::SendMessages`), the receiver's
output (`GOT128Receiver::ComputeOutputs`) equals exactly the sender input
block `inputs_[2*i + x_i]` selected by the receiver's real choice bit,
independently of the precomputed random choice bit. -/
theorem got128_output_is_chosen_input (numOts : ℕ)
    (choices randomChoices corrections : ℕ → Bool) (inputs y0 y1 stored : ℕ → ℕ)
    (hcorr : ∀ i, corrections i = correctionBit (choices i) (randomChoices i))
    (hstored : ∀ i, stored i = iknpReceiverPad (y0 i) (y1 i) (randomChoices i)) :
    ∀ i, i < numOts →
      got128ReceiverComputeOutputs randomChoices
          (got128SenderMessage corrections inputs y0 y1) stored i
        = inputs (2 * i + if choices i then 1 else 0) := by
  intro i _
  cases hx : choices i <;> cases hr : randomChoices i <;>
    simp [got128ReceiverComputeOutputs, got128SenderMessage, correctionBit,
      iknpReceiverPad, hcorr, hstored, hx, hr, Nat.xor_assoc, Nat.xor_comm,
      natXorLeftComm, natXorCancelLeft]

namespace C10Data

def ch : ℕ → Bool := fun i => decide (i = 0)
def rc : ℕ → Bool := fun i => decide (i ≠ 2)
def ins : ℕ → ℕ := fun i => 100 + i
def y0 : ℕ → ℕ := fun i => 7 * i + 1
def y1 : ℕ → ℕ := fun i => 5 * i + 2
def cs : ℕ → Bool := fun i => OTFlavors.correctionBit (ch i) (rc i)
def st : ℕ → ℕ := fun i => OTFlavors.iknpReceiverPad (y0 i) (y1 i) (rc i)

end C10Data

open OTFlavors C10Data in
/-- Witness for C10 at a concrete batch of three OTs covering both choice and
random-choice bit values. -/
theorem got128_output_is_chosen_input_witness :
    (∀ i, cs i = correctionBit (ch i) (rc i)) ∧
    (∀ i, st i = iknpReceiverPad (y0 i) (y1 i) (rc i)) ∧
    got128ReceiverComputeOutputs rc (got128SenderMessage cs ins y0 y1) st 0
      = ins (2 * 0 + if ch 0 then 1 else 0) :=
  ⟨fun _ => rfl, fun _ => rfl,
    got128_output_is_chosen_input 3 ch rc cs ins y0 y1 st (fun _ => rfl) (fun _ => rfl)
      0 (by norm_num)⟩

/-! ## Arithmetic BEAVY multiplication and squaring (`protocols/beavy/gate.cpp`)

Claims C1 (`ArithmeticBEAVYMULGate`) and C5 (`ArithmeticBEAVYSQRGate`).
SIMD vectors are functions from slot index to `Word w`; the componentwise
`std::transform` chains become pointwise ring expressions.
-/

namespace BEAVYGate

/-- `ArithmeticBEAVYMULGate<T>::evaluate_setup` (gate.cpp:1869-1920): after the
setup phase `Delta_y_share_[i]` holds
`delta_a_share[i] * delta_b_share[i] + delta_y_share[i]` plus the outputs of
the two integer-multiplication sessions (`mult_receiver_`, `mult_sender_`). -/
def mulSetupShare {w : ℕ} (deltaAShare deltaBShare deltaYShare recvOut sendOut : ℕ → Word w)
    (i : ℕ) : Word w :=
  deltaAShare i * deltaBShare i + deltaYShare i + recvOut i + sendOut i

/-- `ArithmeticBEAVYMULGate<T>::evaluate_online` (gate.cpp:1923-1977): the
value broadcast by a party: the stored setup share minus
`Delta_a * delta_b_share` minus `Delta_b * delta_a_share`, plus
`Delta_a * Delta_b` iff `beavy_provider_.is_my_job(gate_id_)`. -/
def mulOnlineBroadcast {w : ℕ} (setupShare DeltaA DeltaB deltaAShare deltaBShare : ℕ → Word w)
    (myJob : Bool) (i : ℕ) : Word w :=
  let v := setupShare i - DeltaA i * deltaBShare i - DeltaB i * deltaAShare i
  if myJob then v + DeltaA i * DeltaB i else v

/-- `ArithmeticBEAVYMULGate<T>::evaluate_online`, final combination:
`Delta_y = [Delta_y]_i + [Delta_y]_(1-i)` (own broadcast value plus the
received half). -/
def onlineDeltaY {w : ℕ} (mine other : ℕ → Word w) (i : ℕ) : Word w :=
  mine i + other i

/-- Modelled from the spec: `BEAVYProvider::is_my_job` (not part of the
sources) is a deterministic per-gate split ensuring that exactly one of the
two parties adds the `Delta_a * Delta_b` term; the peer's flag is the
negation of ours. -/
def isMyJobOther (myJob : Bool) : Bool := !myJob

/-- `ArithmeticBEAVYSQRGate<T>::ArithmeticBEAVYSQRGate` (gate.cpp:2125-2142):
which integer-multiplication handles a party registers,
`(has mult_sender_, has mult_receiver_)`: party 0 registers only a sender
session, any other party only a receiver session. -/
def sqrSessionHandles (myId : ℕ) : Bool × Bool :=
  if myId = 0 then (true, false) else (false, true)

/-- `ArithmeticBEAVYSQRGate<T>::evaluate_setup` (gate.cpp:2147-2199): after
setup `Delta_y_share_[i] = delta_a_share[i]^2 + delta_y_share[i] +
2 * delta_aa_share[i]` where `delta_aa_share` is the single session's
output. -/
def sqrSetupShare {w : ℕ} (deltaAShare deltaYShare sessionOut : ℕ → Word w) (i : ℕ) : Word w :=
  deltaAShare i * deltaAShare i + deltaYShare i + 2 * sessionOut i

/-- `ArithmeticBEAVYSQRGate<T>::evaluate_online` (gate.cpp:2201-2245): the
broadcast value: stored setup share minus `2 * Delta_a * delta_a_share`, plus
`Delta_a * Delta_a` iff it is this party's job. -/
def sqrOnlineBroadcast {w : ℕ} (setupShare DeltaA deltaAShare : ℕ → Word w) (myJob : Bool)
    (i : ℕ) : Word w :=
  let v := setupShare i - 2 * DeltaA i * deltaAShare i
  if myJob then v + DeltaA i * DeltaA i else v

end BEAVYGate

open BEAVYGate in
/-- C1: for the two-party `ArithmeticBEAVYMULGate` over `Word w`, assuming the
BEAVY wire invariant on both inputs and that the two integer-multiplication
sessions return additive shares of the cross products, each party broadcasts
`setup share - Delta_a * lambda_b_i - Delta_b * lambda_a_i
 (+ Delta_a * Delta_b for exactly the my-job party)`, and after exchanging
and summing the two halves both parties hold the same
`Delta_y = a * b + lambda_y0 + lambda_y1` in every SIMD slot. -/
theorem arithmetic_beavy_mul_correct {w : ℕ} (numSimd : ℕ) (myJob : Bool)
    (a b lamA0 lamA1 lamB0 lamB1 lamY0 lamY1 DeltaA DeltaB : ℕ → Word w)
    (recv0 send0 recv1 send1 : ℕ → Word w)
    (hDa : ∀ i, DeltaA i = a i + lamA0 i + lamA1 i)
    (hDb : ∀ i, DeltaB i = b i + lamB0 i + lamB1 i)
    (hsess1 : ∀ i, recv0 i + send1 i = lamA0 i * lamB1 i)
    (hsess2 : ∀ i, send0 i + recv1 i = lamB0 i * lamA1 i) :
    ∀ i, i < numSimd →
      (onlineDeltaY
          (mulOnlineBroadcast (mulSetupShare lamA0 lamB0 lamY0 recv0 send0)
            DeltaA DeltaB lamA0 lamB0 myJob)
          (mulOnlineBroadcast (mulSetupShare lamA1 lamB1 lamY1 recv1 send1)
            DeltaA DeltaB lamA1 lamB1 (isMyJobOther myJob)) i
        = a i * b i + lamY0 i + lamY1 i) ∧
      (onlineDeltaY
          (mulOnlineBroadcast (mulSetupShare lamA0 lamB0 lamY0 recv0 send0)
            DeltaA DeltaB lamA0 lamB0 myJob)
          (mulOnlineBroadcast (mulSetupShare lamA1 lamB1 lamY1 recv1 send1)
            DeltaA DeltaB lamA1 lamB1 (isMyJobOther myJob)) i
        = onlineDeltaY
            (mulOnlineBroadcast (mulSetupShare lamA1 lamB1 lamY1 recv1 send1)
              DeltaA DeltaB lamA1 lamB1 (isMyJobOther myJob))
            (mulOnlineBroadcast (mulSetupShare lamA0 lamB0 lamY0 recv0 send0)
              DeltaA DeltaB lamA0 lamB0 myJob) i) := by
  intro i _
  have h1 := hsess1 i
  have h2 := hsess2 i
  refine ⟨?_, add_comm _ _⟩
  simp only [onlineDeltaY, mulOnlineBroadcast, mulSetupShare, isMyJobOther]
  cases myJob <;>
    · simp only [Bool.not_true, Bool.not_false, Bool.false_eq_true, Bool.true_eq_false,
        if_true, if_false, hDa i, hDb i]
      linear_combination h1 + h2

namespace C1Data

def lamA0 : ℕ → Word 8 := fun _ => 17
def lamA1 : ℕ → Word 8 := fun _ => 250
def lamB0 : ℕ → Word 8 := fun _ => 3
def lamB1 : ℕ → Word 8 := fun _ => 77
def lamY0 : ℕ → Word 8 := fun _ => 99
def lamY1 : ℕ → Word 8 := fun _ => 41
def aVal : ℕ → Word 8 := fun _ => 2
def bVal : ℕ → Word 8 := fun _ => 3
def DeltaA : ℕ → Word 8 := fun i => aVal i + lamA0 i + lamA1 i
def DeltaB : ℕ → Word 8 := fun i => bVal i + lamB0 i + lamB1 i
def recv0 : ℕ → Word 8 := fun _ => 5
def send1 : ℕ → Word 8 := fun i => lamA0 i * lamB1 i - recv0 i
def send0 : ℕ → Word 8 := fun _ => 11
def recv1 : ℕ → Word 8 := fun i => lamB0 i * lamA1 i - send0 i

end C1Data

open BEAVYGate C1Data in
/-- Witness for C1 at a concrete SIMD slot over `Word 8`. -/
theorem arithmetic_beavy_mul_correct_witness :
    (∀ i, DeltaA i = aVal i + lamA0 i + lamA1 i) ∧
    (∀ i, recv0 i + send1 i = lamA0 i * lamB1 i) ∧
    (onlineDeltaY
        (mulOnlineBroadcast (mulSetupShare lamA0 lamB0 lamY0 recv0 send0)
          DeltaA DeltaB lamA0 lamB0 true)
        (mulOnlineBroadcast (mulSetupShare lamA1 lamB1 lamY1 recv1 send1)
          DeltaA DeltaB lamA1 lamB1 (isMyJobOther true)) 0
      = aVal 0 * bVal 0 + lamY0 0 + lamY1 0) :=
  ⟨fun _ => rfl, fun _ => by simp [recv0, send1], by
    exact (arithmetic_beavy_mul_correct 1 true aVal bVal lamA0 lamA1 lamB0 lamB1 lamY0 lamY1
      DeltaA DeltaB recv0 send0 recv1 send1 (fun _ => rfl) (fun _ => rfl)
      (fun i => by simp [recv0, send1]) (fun i => by simp [send0, recv1])
      0 (by norm_num)).1⟩

open BEAVYGate in
/-- C5: the `ArithmeticBEAVYSQRGate` registers exactly one
integer-multiplication session handle, party 0 always the sender side and
party 1 always the receiver side; assuming that session returns additive
shares of `lambda_a^(0) * lambda_a^(1)`, the setup accumulates
`lambda_a_i^2 + lambda_y_i + 2 * session output`, the online phase subtracts
`2 * Delta_a * lambda_a_i` and adds `Delta_a^2` only in the my-job branch,
and after the exchange both parties' output public share equals
`a^2 + lambda_y0 + lambda_y1` in every SIMD slot. -/
theorem arithmetic_beavy_sqr_correct {w : ℕ} (numSimd : ℕ) (myJob : Bool)
    (a lamA0 lamA1 lamY0 lamY1 DeltaA sess0 sess1 : ℕ → Word w)
    (hDa : ∀ i, DeltaA i = a i + lamA0 i + lamA1 i)
    (hsess : ∀ i, sess0 i + sess1 i = lamA0 i * lamA1 i) :
    (sqrSessionHandles 0 = (true, false) ∧ sqrSessionHandles 1 = (false, true)) ∧
    ∀ i, i < numSimd →
      (onlineDeltaY
          (sqrOnlineBroadcast (sqrSetupShare lamA0 lamY0 sess0) DeltaA lamA0 myJob)
          (sqrOnlineBroadcast (sqrSetupShare lamA1 lamY1 sess1) DeltaA lamA1
            (isMyJobOther myJob)) i
        = a i * a i + lamY0 i + lamY1 i) ∧
      (onlineDeltaY
          (sqrOnlineBroadcast (sqrSetupShare lamA0 lamY0 sess0) DeltaA lamA0 myJob)
          (sqrOnlineBroadcast (sqrSetupShare lamA1 lamY1 sess1) DeltaA lamA1
            (isMyJobOther myJob)) i
        = onlineDeltaY
            (sqrOnlineBroadcast (sqrSetupShare lamA1 lamY1 sess1) DeltaA lamA1
              (isMyJobOther myJob))
            (sqrOnlineBroadcast (sqrSetupShare lamA0 lamY0 sess0) DeltaA lamA0 myJob) i) := by
  refine ⟨⟨rfl, rfl⟩, ?_⟩
  intro i _
  have h := hsess i
  refine ⟨?_, add_comm _ _⟩
  simp only [onlineDeltaY, sqrOnlineBroadcast, sqrSetupShare, isMyJobOther]
  cases myJob <;>
    · simp only [Bool.not_true, Bool.not_false, Bool.false_eq_true, Bool.true_eq_false,
        if_true, if_false, hDa i]
      linear_combination 2 * h

namespace C5Data

def lamA0 : ℕ → Word 8 := fun _ => 17
def lamA1 : ℕ → Word 8 := fun _ => 250
def lamY0 : ℕ → Word 8 := fun _ => 99
def lamY1 : ℕ → Word 8 := fun _ => 41
def aVal : ℕ → Word 8 := fun _ => 7
def DeltaA : ℕ → Word 8 := fun i => aVal i + lamA0 i + lamA1 i
def sess0 : ℕ → Word 8 := fun _ => 13
def sess1 : ℕ → Word 8 := fun i => lamA0 i * lamA1 i - sess0 i

end C5Data

open BEAVYGate C5Data in
/-- Witness for C5 at a concrete SIMD slot over `Word 8`. -/
theorem arithmetic_beavy_sqr_correct_witness :
    (∀ i, DeltaA i = aVal i + lamA0 i + lamA1 i) ∧
    (∀ i, sess0 i + sess1 i = lamA0 i * lamA1 i) ∧
    (onlineDeltaY
        (sqrOnlineBroadcast (sqrSetupShare lamA0 lamY0 sess0) DeltaA lamA0 false)
        (sqrOnlineBroadcast (sqrSetupShare lamA1 lamY1 sess1) DeltaA lamA1
          (isMyJobOther false)) 0
      = aVal 0 * aVal 0 + lamY0 0 + lamY1 0) :=
  ⟨fun _ => rfl, fun _ => by simp [sess0, sess1], by
    exact ((arithmetic_beavy_sqr_correct 1 false aVal lamA0 lamA1 lamY0 lamY1 DeltaA
      sess0 sess1 (fun _ => rfl) (fun i => by simp [sess0, sess1])).2
      0 (by norm_num)).1⟩

/-! ## Boolean BEAVY XOR gate (`protocols/beavy/gate.cpp:827-854`), claim C8 -/

namespace BEAVYBoolean

/-- Result of one phase of a Boolean BEAVY gate: the bits written to the
gate's own output wires (wire index, SIMD index), and the payloads passed to
`broadcast_bits_message` / `send_bits_message` during the phase.  A gate
phase has no other effect on engine state. -/
structure BoolPhaseResult where
  wireShares : ℕ → ℕ → Bool
  sentMessages : List (ℕ → Bool)

/-- `BooleanBEAVYXORGate::evaluate_setup` (gate.cpp:832-842): for every output
wire, secret share := XOR of the input wires' secret shares; nothing is
sent. -/
def booleanBEAVYXORGateSetup (aSecret bSecret : ℕ → ℕ → Bool) : BoolPhaseResult :=
  { wireShares := fun wireI j => xor (aSecret wireI j) (bSecret wireI j)
    sentMessages := [] }

/-- `BooleanBEAVYXORGate::evaluate_online` (gate.cpp:844-854): for every
output wire, public share := XOR of the input wires' public shares; nothing
is sent. -/
def booleanBEAVYXORGateOnline (aPublic bPublic : ℕ → ℕ → Bool) : BoolPhaseResult :=
  { wireShares := fun wireI j => xor (aPublic wireI j) (bPublic wireI j)
    sentMessages := [] }

end BEAVYBoolean

open BEAVYBoolean in
/-- C8: the Boolean BEAVY XOR gate is purely local: its setup writes the
componentwise XOR of the input secret shares to the output wires, its online
phase writes the componentwise XOR of the input public shares, and neither
phase hands any payload to the messaging layer (zero bytes exchanged); the
phase results carry no other state change. -/
theorem boolean_beavy_xor_local (aSecret bSecret aPublic bPublic : ℕ → ℕ → Bool) :
    (∀ wireI j, (booleanBEAVYXORGateSetup aSecret bSecret).wireShares wireI j
        = xor (aSecret wireI j) (bSecret wireI j)) ∧
    (∀ wireI j, (booleanBEAVYXORGateOnline aPublic bPublic).wireShares wireI j
        = xor (aPublic wireI j) (bPublic wireI j)) ∧
    (booleanBEAVYXORGateSetup aSecret bSecret).sentMessages = [] ∧
    (booleanBEAVYXORGateOnline aPublic bPublic).sentMessages = [] :=
  ⟨fun _ _ => rfl, fun _ _ => rfl, rfl, rfl⟩

/-! ## OT batch registration (`ot_provider.cpp`, `ot_flavors.cpp`), claim C6 -/

namespace OTRegistration

/-- Lookup in an association list modelling `std::map<std::size_t, std::size_t>`. -/
def mapLookup : List (ℕ × ℕ) → ℕ → Option ℕ
  | [], _ => none
  | p :: rest, k => if p.1 = k then some p.2 else mapLookup rest k

/-- `std::map::emplace`: insert only if the key is not present; an existing
entry is never overwritten. -/
def emplace (m : List (ℕ × ℕ)) (k v : ℕ) : List (ℕ × ℕ) :=
  if (mapLookup m k).isSome then m else m ++ [(k, v)]

/-- Registration-relevant state of one `OTProviderSender` together with its
shared `OTExtensionSenderData` arrays. -/
structure SenderState where
  totalOtsCount : ℕ
  y0Len : ℕ
  y1Len : ℕ
  bitlengthsLen : ℕ
  correctionsLen : ℕ
  numOtsInBatch : List (ℕ × ℕ)

/-- One `OTProviderSender::Register*` call (ot_provider.cpp:904-990): read
`total_ots_count_` as the new batch's `ot_id`, bump the counter by `num_ots`,
and run the `BasicOTSender` constructor (ot_flavors.cpp:33-49), which grows
`y0_`, `y1_`, `bitlengths_`, `corrections_` by `num_ots` and emplaces
`(ot_id, num_ots)` into `num_ots_in_batch_`.  Returns the batch's `ot_id`
and the new state. -/
def registerSend (st : SenderState) (numOts : ℕ) : ℕ × SenderState :=
  (st.totalOtsCount,
    { totalOtsCount := st.totalOtsCount + numOts
      y0Len := st.y0Len + numOts
      y1Len := st.y1Len + numOts
      bitlengthsLen := st.bitlengthsLen + numOts
      correctionsLen := st.correctionsLen + numOts
      numOtsInBatch := emplace st.numOtsInBatch st.totalOtsCount numOts })

/-- Registration-relevant state of one `OTProviderReceiver` together with its
shared `OTExtensionReceiverData` arrays. -/
structure ReceiverState where
  totalOtsCount : ℕ
  outputsLen : ℕ
  bitlengthsLen : ℕ
  numOtsInBatch : List (ℕ × ℕ)

/-- One `OTProviderReceiver::Register*` call (ot_provider.cpp:1099-1186) with
the `BasicOTReceiver` constructor (ot_flavors.cpp:55-63): read the counter as
`ot_id`, bump it, resize `outputs_` and `bitlengths_` to `ot_id + num_ots`,
and emplace the batch size. -/
def registerReceive (st : ReceiverState) (numOts : ℕ) : ℕ × ReceiverState :=
  (st.totalOtsCount,
    { totalOtsCount := st.totalOtsCount + numOts
      outputsLen := st.totalOtsCount + numOts
      bitlengthsLen := st.totalOtsCount + numOts
      numOtsInBatch := emplace st.numOtsInBatch st.totalOtsCount numOts })

/-- Fresh provider (counter 0, empty arrays, no batches). -/
def initSender : SenderState := ⟨0, 0, 0, 0, 0, []⟩

/-- Fresh receiver provider. -/
def initReceiver : ReceiverState := ⟨0, 0, 0, []⟩

/-- Sender state after a sequence of registrations of the given sizes. -/
def senderAfter (sizes : List ℕ) : SenderState :=
  sizes.foldl (fun st n => (registerSend st n).2) initSender

/-- Receiver state after a sequence of registrations of the given sizes. -/
def receiverAfter (sizes : List ℕ) : ReceiverState :=
  sizes.foldl (fun st n => (registerReceive st n).2) initReceiver

/-- The `ot_id` returned by the `k`-th registration. -/
def otIdAt (sizes : List ℕ) (k : ℕ) : ℕ := ((sizes.take k).sum)

theorem mapLookup_append_right (m : List (ℕ × ℕ)) (k v : ℕ)
    (h : mapLookup m k = none) : mapLookup (m ++ [(k, v)]) k = some v := by
  induction m with
  | nil => simp [mapLookup]
  | cons p rest ih =>
    by_cases hk : p.1 = k
    · simp [mapLookup, hk] at h
    · simp only [mapLookup, hk, if_false, List.cons_append] at h ⊢
      simp [mapLookup, hk] at h ⊢
      exact ih h

theorem mapLookup_append_of_some (m m' : List (ℕ × ℕ)) (k v : ℕ)
    (h : mapLookup m k = some v) : mapLookup (m ++ m') k = some v := by
  induction m with
  | nil => simp [mapLookup] at h
  | cons p rest ih =>
    by_cases hk : p.1 = k
    · simp [mapLookup, hk] at h ⊢; exact h
    · simp [mapLookup, hk] at h ⊢; exact ih h

theorem emplace_preserves (m : List (ℕ × ℕ)) (k v k0 v0 : ℕ)
    (h : mapLookup m k0 = some v0) : mapLookup (emplace m k v) k0 = some v0 := by
  unfold emplace
  by_cases hs : (mapLookup m k).isSome
  · simp [hs, h]
  · simp [hs]
    exact mapLookup_append_of_some m [(k, v)] k0 v0 h

theorem mapLookup_eq_none_of_keys_lt (m : List (ℕ × ℕ)) (bound k : ℕ)
    (hm : ∀ p ∈ m, p.1 < bound) (hk : bound ≤ k) : mapLookup m k = none := by
  induction m with
  | nil => rfl
  | cons p rest ih =>
    have hp : p.1 < bound := hm p (List.mem_cons_self p rest)
    have hne : p.1 ≠ k := Nat.ne_of_lt (lt_of_lt_of_le hp hk)
    simp only [mapLookup, hne, if_false]
    exact ih fun q hq => hm q (List.mem_cons_of_mem p hq)

/-- Keys of all registered batches lie below the running counter. -/
def KeysBounded (m : List (ℕ × ℕ)) (bound : ℕ) : Prop := ∀ p ∈ m, p.1 < bound

theorem emplace_keysBounded (m : List (ℕ × ℕ)) (k v bound : ℕ)
    (hm : KeysBounded m bound) (hk : k < bound) : KeysBounded (emplace m k v) bound := by
  unfold emplace
  by_cases hs : (mapLookup m k).isSome
  · simpa [hs] using hm
  · simp only [hs, if_false]
    intro p hp
    rcases List.mem_append.mp hp with h | h
    · exact hm p h
    · cases List.mem_singleton.mp h
      exact hk

theorem keysBounded_mono {m : List (ℕ × ℕ)} {b b' : ℕ} (h : KeysBounded m b) (hb : b ≤ b') :
    KeysBounded m b' := fun p hp => lt_of_lt_of_le (h p hp) hb

theorem registerSend_lookup_new (st : SenderState) (n : ℕ)
    (hb : KeysBounded st.numOtsInBatch st.totalOtsCount) :
    mapLookup (registerSend st n).2.numOtsInBatch st.totalOtsCount = some n := by
  have hnone : mapLookup st.numOtsInBatch st.totalOtsCount = none :=
    mapLookup_eq_none_of_keys_lt _ st.totalOtsCount _ hb le_rfl
  simp only [registerSend, emplace, hnone, Option.isSome_none, Bool.false_eq_true, if_false]
  exact mapLookup_append_right _ _ _ hnone

theorem registerReceive_lookup_new (st : ReceiverState) (n : ℕ)
    (hb : KeysBounded st.numOtsInBatch st.totalOtsCount) :
    mapLookup (registerReceive st n).2.numOtsInBatch st.totalOtsCount = some n := by
  have hnone : mapLookup st.numOtsInBatch st.totalOtsCount = none :=
    mapLookup_eq_none_of_keys_lt _ st.totalOtsCount _ hb le_rfl
  simp only [registerReceive, emplace, hnone, Option.isSome_none, Bool.false_eq_true, if_false]
  exact mapLookup_append_right _ _ _ hnone

theorem senderFold_fields (l : List ℕ) : ∀ st : SenderState,
    (l.foldl (fun st n => (registerSend st n).2) st).totalOtsCount = st.totalOtsCount + l.sum ∧
    (l.foldl (fun st n => (registerSend st n).2) st).y0Len = st.y0Len + l.sum ∧
    (l.foldl (fun st n => (registerSend st n).2) st).y1Len = st.y1Len + l.sum ∧
    (l.foldl (fun st n => (registerSend st n).2) st).bitlengthsLen = st.bitlengthsLen + l.sum ∧
    (l.foldl (fun st n => (registerSend st n).2) st).correctionsLen
      = st.correctionsLen + l.sum := by
  induction l with
  | nil => intro st; simp
  | cons n rest ih =>
    intro st
    obtain ⟨h1, h2, h3, h4, h5⟩ := ih (registerSend st n).2
    refine ⟨?_, ?_, ?_, ?_, ?_⟩
    · rw [List.foldl_cons, h1]; simp only [registerSend, List.sum_cons]; omega
    · rw [List.foldl_cons, h2]; simp only [registerSend, List.sum_cons]; omega
    · rw [List.foldl_cons, h3]; simp only [registerSend, List.sum_cons]; omega
    · rw [List.foldl_cons, h4]; simp only [registerSend, List.sum_cons]; omega
    · rw [List.foldl_cons, h5]; simp only [registerSend, List.sum_cons]; omega

theorem receiverFold_fields (l : List ℕ) : ∀ st : ReceiverState,
    st.outputsLen = st.totalOtsCount → st.bitlengthsLen = st.totalOtsCount →
    (l.foldl (fun st n => (registerReceive st n).2) st).totalOtsCount
        = st.totalOtsCount + l.sum ∧
    (l.foldl (fun st n => (registerReceive st n).2) st).outputsLen
        = st.totalOtsCount + l.sum ∧
    (l.foldl (fun st n => (registerReceive st n).2) st).bitlengthsLen
        = st.totalOtsCount + l.sum := by
  induction l with
  | nil => intro st h1 h2; simp [h1, h2]
  | cons n rest ih =>
    intro st h1 h2
    obtain ⟨g1, g2, g3⟩ := ih (registerReceive st n).2 rfl rfl
    refine ⟨?_, ?_, ?_⟩
    · rw [List.foldl_cons, g1]; simp only [registerReceive, List.sum_cons]; omega
    · rw [List.foldl_cons, g2]; simp only [registerReceive, List.sum_cons]; omega
    · rw [List.foldl_cons, g3]; simp only [registerReceive, List.sum_cons]; omega

theorem senderFold_lookup_preserve (l : List ℕ) : ∀ (st : SenderState) (k v : ℕ),
    mapLookup st.numOtsInBatch k = some v →
    mapLookup ((l.foldl (fun st n => (registerSend st n).2) st).numOtsInBatch) k = some v := by
  induction l with
  | nil => intro st k v h; simpa using h
  | cons n rest ih =>
    intro st k v h
    exact ih _ k v (emplace_preserves _ _ _ _ _ h)

theorem receiverFold_lookup_preserve (l : List ℕ) : ∀ (st : ReceiverState) (k v : ℕ),
    mapLookup st.numOtsInBatch k = some v →
    mapLookup ((l.foldl (fun st n => (registerReceive st n).2) st).numOtsInBatch) k
      = some v := by
  induction l with
  | nil => intro st k v h; simpa using h
  | cons n rest ih =>
    intro st k v h
    exact ih _ k v (emplace_preserves _ _ _ _ _ h)

theorem senderFold_keysBounded (l : List ℕ) : ∀ st : SenderState, (∀ n ∈ l, 0 < n) →
    KeysBounded st.numOtsInBatch st.totalOtsCount →
    KeysBounded ((l.foldl (fun st n => (registerSend st n).2) st).numOtsInBatch)
      ((l.foldl (fun st n => (registerSend st n).2) st).totalOtsCount) := by
  induction l with
  | nil => intro st _ h; simpa using h
  | cons n rest ih =>
    intro st hl h
    refine ih _ (fun m hm => hl m (List.mem_cons_of_mem n hm)) ?_
    have hn : 0 < n := hl n (List.mem_cons_self n rest)
    exact emplace_keysBounded _ _ _ _ (keysBounded_mono h (Nat.le_add_right _ n))
      (Nat.lt_add_of_pos_right hn)

theorem receiverFold_keysBounded (l : List ℕ) : ∀ st : ReceiverState, (∀ n ∈ l, 0 < n) →
    KeysBounded st.numOtsInBatch st.totalOtsCount →
    KeysBounded ((l.foldl (fun st n => (registerReceive st n).2) st).numOtsInBatch)
      ((l.foldl (fun st n => (registerReceive st n).2) st).totalOtsCount) := by
  induction l with
  | nil => intro st _ h; simpa using h
  | cons n rest ih =>
    intro st hl h
    refine ih _ (fun m hm => hl m (List.mem_cons_of_mem n hm)) ?_
    have hn : 0 < n := hl n (List.mem_cons_self n rest)
    exact emplace_keysBounded _ _ _ _ (keysBounded_mono h (Nat.le_add_right _ n))
      (Nat.lt_add_of_pos_right hn)

theorem sum_take_mono (l : List ℕ) {m k : ℕ} (h : m ≤ k) :
    (l.take m).sum ≤ (l.take k).sum := by
  conv_rhs => rw [← Nat.add_sub_cancel' h]
  rw [List.take_add, List.sum_append]
  exact Nat.le_add_right _ _

theorem otIdAt_succ (sizes : List ℕ) (k : ℕ) (hk : k < sizes.length) :
    otIdAt sizes (k + 1) = otIdAt sizes k + sizes.get ⟨k, hk⟩ := by
  unfold otIdAt
  rw [List.sum_take_succ sizes k hk]
  simp [List.get_eq_getElem]

theorem take_succ_eq (sizes : List ℕ) (k : ℕ) (hk : k < sizes.length) :
    sizes.take (k + 1) = sizes.take k ++ [sizes.get ⟨k, hk⟩] := by
  rw [List.take_succ, List.getElem?_eq_getElem hk]
  simp [List.get_eq_getElem]

theorem senderAfter_total (sizes : List ℕ) :
    (senderAfter sizes).totalOtsCount = sizes.sum := by
  simpa [senderAfter, initSender] using (senderFold_fields sizes initSender).1

theorem senderAfter_lookup (sizes : List ℕ) (hpos : ∀ n ∈ sizes, 0 < n)
    (k m : ℕ) (hk : k < sizes.length) (hkm : k < m) :
    mapLookup ((senderAfter (sizes.take m)).numOtsInBatch) (otIdAt sizes k)
      = some (sizes.get ⟨k, hk⟩) := by
  have hdecomp : sizes.take m
      = sizes.take (k + 1) ++ (sizes.drop (k + 1)).take (m - (k + 1)) := by
    rw [← List.take_add]
    congr 1
    omega
  unfold senderAfter
  rw [hdecomp, List.foldl_append, take_succ_eq sizes k hk, List.foldl_append]
  simp only [List.foldl_cons, List.foldl_nil]
  apply senderFold_lookup_preserve
  have hb : KeysBounded (senderAfter (sizes.take k)).numOtsInBatch
      (senderAfter (sizes.take k)).totalOtsCount := by
    apply senderFold_keysBounded
    · exact fun n hn => hpos n (List.take_subset _ _ hn)
    · intro p hp
      simp [initSender] at hp
  have htot : (senderAfter (sizes.take k)).totalOtsCount = otIdAt sizes k := by
    simpa [otIdAt] using senderAfter_total (sizes.take k)
  rw [← htot]
  exact registerSend_lookup_new _ _ hb

theorem receiverAfter_total (sizes : List ℕ) :
    (receiverAfter sizes).totalOtsCount = sizes.sum := by
  simpa [receiverAfter, initReceiver] using (receiverFold_fields sizes initReceiver rfl rfl).1

theorem receiverAfter_lookup (sizes : List ℕ) (hpos : ∀ n ∈ sizes, 0 < n)
    (k m : ℕ) (hk : k < sizes.length) (hkm : k < m) :
    mapLookup ((receiverAfter (sizes.take m)).numOtsInBatch) (otIdAt sizes k)
      = some (sizes.get ⟨k, hk⟩) := by
  have hdecomp : sizes.take m
      = sizes.take (k + 1) ++ (sizes.drop (k + 1)).take (m - (k + 1)) := by
    rw [← List.take_add]
    congr 1
    omega
  unfold receiverAfter
  rw [hdecomp, List.foldl_append, take_succ_eq sizes k hk, List.foldl_append]
  simp only [List.foldl_cons, List.foldl_nil]
  apply receiverFold_lookup_preserve
  have hb : KeysBounded (receiverAfter (sizes.take k)).numOtsInBatch
      (receiverAfter (sizes.take k)).totalOtsCount := by
    apply receiverFold_keysBounded
    · exact fun n hn => hpos n (List.take_subset _ _ hn)
    · intro p hp
      simp [initReceiver] at hp
  have htot : (receiverAfter (sizes.take k)).totalOtsCount = otIdAt sizes k := by
    simpa [otIdAt] using receiverAfter_total (sizes.take k)
  rw [← htot]
  exact registerReceive_lookup_new _ _ hb

end OTRegistration

open OTRegistration in
/-- C6: for every sequence of OT-batch registrations on one provider, each
registration returns a batch whose offset `ot_id` equals the provider's total
OT count before the call and bumps the count by `num_ots`; the shared sender
arrays `y0_`/`y1_`/`bitlengths_`/`corrections_` and receiver arrays
`outputs_`/`bitlengths_` always have exactly `total_ots_count_` entries, so
distinct batches occupy disjoint index ranges `[ot_id, ot_id + num_ots)` in
them; and a batch's `num_ots_in_batch_` entry is fixed at registration and is
never changed by later registrations. -/
theorem ot_batch_registration_invariants (sizes : List ℕ) (hpos : ∀ n ∈ sizes, 0 < n) :
    (∀ (st : SenderState) (n : ℕ), (registerSend st n).1 = st.totalOtsCount
      ∧ (registerSend st n).2.totalOtsCount = st.totalOtsCount + n) ∧
    (∀ (st : ReceiverState) (n : ℕ), (registerReceive st n).1 = st.totalOtsCount
      ∧ (registerReceive st n).2.totalOtsCount = st.totalOtsCount + n) ∧
    (∀ k, (senderAfter (sizes.take k)).totalOtsCount = otIdAt sizes k
      ∧ (senderAfter (sizes.take k)).y0Len = otIdAt sizes k
      ∧ (senderAfter (sizes.take k)).y1Len = otIdAt sizes k
      ∧ (senderAfter (sizes.take k)).bitlengthsLen = otIdAt sizes k
      ∧ (senderAfter (sizes.take k)).correctionsLen = otIdAt sizes k) ∧
    (∀ k, (receiverAfter (sizes.take k)).totalOtsCount = otIdAt sizes k
      ∧ (receiverAfter (sizes.take k)).outputsLen = otIdAt sizes k
      ∧ (receiverAfter (sizes.take k)).bitlengthsLen = otIdAt sizes k) ∧
    (∀ j k, j < k → ∀ hj : j < sizes.length,
      otIdAt sizes j + sizes.get ⟨j, hj⟩ ≤ otIdAt sizes k) ∧
    (∀ k m, ∀ hk : k < sizes.length, k < m →
      mapLookup ((senderAfter (sizes.take m)).numOtsInBatch) (otIdAt sizes k)
        = some (sizes.get ⟨k, hk⟩)
      ∧ mapLookup ((receiverAfter (sizes.take m)).numOtsInBatch) (otIdAt sizes k)
        = some (sizes.get ⟨k, hk⟩)) := by
  refine ⟨fun st n => ⟨rfl, rfl⟩, fun st n => ⟨rfl, rfl⟩, ?_, ?_, ?_, ?_⟩
  · intro k
    obtain ⟨h1, h2, h3, h4, h5⟩ := senderFold_fields (sizes.take k) initSender
    simp only [senderAfter, initSender] at *
    exact ⟨by simpa [otIdAt] using h1, by simpa [otIdAt] using h2, by simpa [otIdAt] using h3,
      by simpa [otIdAt] using h4, by simpa [otIdAt] using h5⟩
  · intro k
    obtain ⟨h1, h2, h3⟩ := receiverFold_fields (sizes.take k) initReceiver rfl rfl
    simp only [receiverAfter, initReceiver] at *
    exact ⟨by simpa [otIdAt] using h1, by simpa [otIdAt] using h2, by simpa [otIdAt] using h3⟩
  · intro j k hjk hj
    calc otIdAt sizes j + sizes.get ⟨j, hj⟩ = otIdAt sizes (j + 1) :=
          (otIdAt_succ sizes j hj).symm
      _ ≤ otIdAt sizes k := sum_take_mono sizes hjk
  · intro k m hk hkm
    exact ⟨senderAfter_lookup sizes hpos k m hk hkm,
      receiverAfter_lookup sizes hpos k m hk hkm⟩

open OTRegistration in
/-- Witness for C6 at the concrete registration sequence `[2, 3, 1]`. -/
theorem ot_batch_registration_invariants_witness :
    (∀ n ∈ [2, 3, 1], 0 < n) ∧
    ((senderAfter ([2, 3, 1].take 2)).totalOtsCount = otIdAt [2, 3, 1] 2 ∧
      mapLookup ((senderAfter ([2, 3, 1].take 3)).numOtsInBatch) (otIdAt [2, 3, 1] 1)
        = some ([2, 3, 1].get ⟨1, by norm_num⟩)) := by
  have h := ot_batch_registration_invariants [2, 3, 1] (by decide)
  exact ⟨by decide, (h.2.2.1 2).1, ((h.2.2.2.2.2 1 3 (by norm_num) (by norm_num)).1)⟩

/-! ## OT handle call-order errors (`ot_flavors.cpp`, `ot_provider.cpp`), claim C9 -/

namespace OTCallOrder

/-- State of a new-style correlated-OT receiver handle (`BasicOTReceiver` and
`ACOTReceiver<T>`): the choice bits (empty until `SetChoices`), whether
corrections were sent, whether outputs were computed. -/
structure COTReceiverState where
  choices : List Bool
  correctionsSent : Bool
  outputsComputed : Bool

/-- Modelled from the spec: `BasicOTReceiver::SetChoices` (declared in
`ot_flavors.h`, which is not among the sources) stores the given choice
bits in `choices_`. -/
def setChoices (st : COTReceiverState) (v : List Bool) : COTReceiverState :=
  { st with choices := v }

/-- `BasicOTReceiver::SendCorrections` (ot_flavors.cpp:67-75): throws (before
any mutation) if the choices are still empty, else sends the corrections and
records `corrections_sent_ = true`. -/
def sendCorrections (st : COTReceiverState) : Option String × COTReceiverState :=
  if st.choices.isEmpty then
    (some "Choices in COT must be set before calling SendCorrections", st)
  else
    (none, { st with correctionsSent := true })

/-- `ACOTReceiver<T>::ComputeOutputs`, entry guards (ot_flavors.cpp:384-393):
returns early if already computed; throws if corrections were not sent. -/
def acotReceiverComputeOutputsGuard (st : COTReceiverState) :
    Option String × COTReceiverState :=
  if st.outputsComputed then (none, st)
  else if !st.correctionsSent then
    (some "Choices in COT must be sent before calling ComputeOutputs", st)
  else (none, { st with outputsComputed := true })

/-- State of an old-style `COTVectorSender` handle (ot_provider.cpp): the
inputs vector, empty until `SetInputs`. -/
structure COTVectorSenderState where
  inputs : List (List Bool)

/-- `COTVectorSender::SetInputs` (ot_provider.cpp:485-497). -/
def cotVectorSenderSetInputs (st : COTVectorSenderState) (v : List (List Bool)) :
    COTVectorSenderState :=
  { st with inputs := v }

/-- `COTVectorSender::GetOutputs`, entry guard (ot_provider.cpp:499-502):
throws if the inputs have not been chosen yet. -/
def cotVectorSenderGetOutputsGuard (st : COTVectorSenderState) :
    Option String × COTVectorSenderState :=
  if st.inputs.isEmpty then
    (some "Inputs have to be chosen before calling GetOutputs", st)
  else (none, st)

/-- `COTVectorSender::SendMessages`, entry guard (ot_provider.cpp:562-565):
throws if the inputs have not been chosen yet. -/
def cotVectorSenderSendMessagesGuard (st : COTVectorSenderState) :
    Option String × COTVectorSenderState :=
  if st.inputs.isEmpty then
    (some "Inputs have to be chosen before calling SendMessages", st)
  else (none, st)

end OTCallOrder

open OTCallOrder in
/-- C9: OT handles enforce the protocol call order: `SendCorrections` before
`SetChoices` raises and leaves the handle unchanged; `ComputeOutputs` before
`SendCorrections` on a new-style COT receiver raises and leaves it unchanged;
`GetOutputs` or `SendMessages` before `SetInputs` on an old-style COT sender
raises and leaves it unchanged; in the prescribed order
(`SetChoices`, `SendCorrections`, `ComputeOutputs`; `SetInputs` then
`GetOutputs`/`SendMessages`), none of these operations raises. -/
theorem ot_call_order_errors :
    (∀ st : COTReceiverState, st.choices = [] →
      (sendCorrections st).1.isSome ∧ (sendCorrections st).2 = st) ∧
    (∀ st : COTReceiverState, st.correctionsSent = false → st.outputsComputed = false →
      (acotReceiverComputeOutputsGuard st).1.isSome
        ∧ (acotReceiverComputeOutputsGuard st).2 = st) ∧
    (∀ st : COTVectorSenderState, st.inputs = [] →
      (cotVectorSenderGetOutputsGuard st).1.isSome
        ∧ (cotVectorSenderGetOutputsGuard st).2 = st
        ∧ (cotVectorSenderSendMessagesGuard st).1.isSome
        ∧ (cotVectorSenderSendMessagesGuard st).2 = st) ∧
    (∀ (st : COTReceiverState) (v : List Bool), v ≠ [] →
      (sendCorrections (setChoices st v)).1 = none ∧
      (acotReceiverComputeOutputsGuard (sendCorrections (setChoices st v)).2).1 = none) ∧
    (∀ (st : COTVectorSenderState) (v : List (List Bool)), v ≠ [] →
      (cotVectorSenderGetOutputsGuard (cotVectorSenderSetInputs st v)).1 = none ∧
      (cotVectorSenderSendMessagesGuard (cotVectorSenderSetInputs st v)).1 = none) := by
  refine ⟨?_, ?_, ?_, ?_, ?_⟩
  · intro st h
    simp [sendCorrections, h]
  · intro st h1 h2
    simp [acotReceiverComputeOutputsGuard, h1, h2]
  · intro st h
    simp [cotVectorSenderGetOutputsGuard, cotVectorSenderSendMessagesGuard, h]
  · intro st v hv
    have hne : v.isEmpty = false := by
      simp [List.isEmpty_iff, hv]
    constructor
    · simp [sendCorrections, setChoices, hne]
    · simp only [sendCorrections, setChoices, hne, Bool.false_eq_true, if_false,
        acotReceiverComputeOutputsGuard]
      split <;> rfl
  · intro st v hv
    simp [cotVectorSenderGetOutputsGuard, cotVectorSenderSendMessagesGuard,
      cotVectorSenderSetInputs, List.isEmpty_iff, hv]

open OTCallOrder in
/-- Witness for C9 at concrete handle states. -/
theorem ot_call_order_errors_witness :
    ((⟨[], false, false⟩ : COTReceiverState).choices = [] ∧
      (sendCorrections ⟨[], false, false⟩).1.isSome) ∧
    (([true] : List Bool) ≠ [] ∧
      (sendCorrections (setChoices ⟨[], false, false⟩ [true])).1 = none) :=
  ⟨⟨rfl, (ot_call_order_errors.1 ⟨[], false, false⟩ rfl).1⟩,
    ⟨by decide, (ot_call_order_errors.2.2.2.1 ⟨[], false, false⟩ [true] (by decide)).1⟩⟩

/-! ## Wire readiness (`wire/wire.h`, BEAVY input gate), claim C7 -/

namespace Readiness

/-- `ABYN::Wires::Wire::SetOnlineFinished` (wire/wire.h:41-49): marking a wire
online-finished a second time throws; the first call sets `is_done_`. -/
def setOnlineFinished (isDone : Bool) : Option String × Bool :=
  if isDone then (some "Marking wire as online phase ready twice", isDone)
  else (none, true)

/-- Modelled from the spec: readiness flags of a BEAVY wire (the new-style
wire class is not among the sources); `set_setup_ready` and
`set_online_ready` fire exactly once, firing twice is a fatal error. -/
structure WireFlags where
  setupReady : Bool
  onlineReady : Bool
deriving DecidableEq

/-- Modelled from the spec: `set_setup_ready` fires the one-shot setup flag. -/
def setSetupReady (f : WireFlags) : Option String × WireFlags :=
  if f.setupReady then (some "set_setup_ready fired twice", f)
  else (none, { f with setupReady := true })

/-- Modelled from the spec: `set_online_ready` fires the one-shot online flag. -/
def setOnlineReady (f : WireFlags) : Option String × WireFlags :=
  if f.onlineReady then (some "set_online_ready fired twice", f)
  else (none, { f with onlineReady := true })

/-- A readiness event emitted by a gate on one of its output wires. -/
inductive WireEvent
  | setupReady (wire : ℕ)
  | onlineReady (wire : ℕ)
deriving DecidableEq

/-- `BooleanBEAVYInputGateSender::evaluate_setup` (gate.cpp:112-145): the loop
over `wire_i < num_wires_` calls `set_setup_ready` once per output wire. -/
def inputGateSenderSetupEvents (numWires : ℕ) : List WireEvent :=
  (List.range numWires).map WireEvent.setupReady

/-- `BooleanBEAVYInputGateSender::evaluate_online` (gate.cpp:147-183): the
loop over `wire_i < num_wires_` calls `set_online_ready` once per wire. -/
def inputGateSenderOnlineEvents (numWires : ℕ) : List WireEvent :=
  (List.range numWires).map WireEvent.onlineReady

/-- Whole-gate readiness trace: the scheduler runs `evaluate_setup` strictly
before `evaluate_online`. -/
def inputGateSenderTrace (numWires : ℕ) : List WireEvent :=
  inputGateSenderSetupEvents numWires ++ inputGateSenderOnlineEvents numWires

/-- Does an event concern wire `w`? -/
def touches (w : ℕ) : WireEvent → Bool
  | .setupReady x => decide (x = w)
  | .onlineReady x => decide (x = w)

/-- Apply one readiness event to the flags of the wire it touches. -/
def applyEvent (flags : ℕ → WireFlags) : WireEvent → Option String × (ℕ → WireFlags)
  | .setupReady wI =>
    let r := setSetupReady (flags wI)
    (r.1, fun j => if j = wI then r.2 else flags j)
  | .onlineReady wI =>
    let r := setOnlineReady (flags wI)
    (r.1, fun j => if j = wI then r.2 else flags j)

/-- Run a list of readiness events, keeping the first error. -/
def runEvents : List WireEvent → (ℕ → WireFlags) → Option String × (ℕ → WireFlags)
  | [], flags => (none, flags)
  | e :: rest, flags =>
    let r := applyEvent flags e
    let rr := runEvents rest r.2
    (r.1 <|> rr.1, rr.2)

/-- All flags fresh (no readiness fired yet). -/
def freshFlags : ℕ → WireFlags := fun _ => ⟨false, false⟩

theorem range_filter_eq_nil (n w : ℕ) (h : n ≤ w) :
    (List.range n).filter (fun x => decide (x = w)) = [] := by
  rw [List.filter_eq_nil_iff]
  intro a ha
  have := List.mem_range.mp ha
  simp only [decide_eq_true_eq]
  omega

theorem range_filter_eq (n w : ℕ) (h : w < n) :
    (List.range n).filter (fun x => decide (x = w)) = [w] := by
  induction n with
  | zero => omega
  | succ n ih =>
    rw [List.range_succ, List.filter_append]
    by_cases hw : w < n
    · rw [ih hw]
      have hne : ¬(n = w) := by omega
      simp [hne]
    · have hwn : n = w := by omega
      rw [range_filter_eq_nil n w (by omega)]
      simp [hwn]

end Readiness

open Readiness in
/-- C7: setup-readiness precedes online-readiness and neither flag fires
twice: `Wire::SetOnlineFinished` on an already-finished wire raises and
leaves the flag unchanged (first call succeeds); the one-shot
`set_setup_ready` / `set_online_ready` raise when fired twice; and in the
readiness trace of the `BooleanBEAVYInputGateSender` the events touching any
output wire are exactly one setup-ready followed by one online-ready, whose
execution from fresh flags raises no error and leaves both flags set. -/
theorem wire_readiness_one_shot_ordering :
    ((setOnlineFinished false).1 = none ∧ (setOnlineFinished false).2 = true ∧
      (setOnlineFinished true).1.isSome ∧ (setOnlineFinished true).2 = true) ∧
    (∀ f : WireFlags, (setSetupReady (setSetupReady f).2).1.isSome ∧
      (setOnlineReady (setOnlineReady f).2).1.isSome) ∧
    (∀ numWires w, w < numWires →
      (inputGateSenderTrace numWires).filter (touches w)
        = [.setupReady w, .onlineReady w] ∧
      (runEvents ((inputGateSenderTrace numWires).filter (touches w)) freshFlags).1 = none ∧
      (runEvents ((inputGateSenderTrace numWires).filter (touches w)) freshFlags).2 w
        = ⟨true, true⟩) := by
  refine ⟨⟨rfl, rfl, rfl, rfl⟩, ?_, ?_⟩
  · intro f
    constructor
    · by_cases h : f.setupReady <;> simp [setSetupReady, h]
    · by_cases h : f.onlineReady <;> simp [setOnlineReady, h]
  · intro numWires w hw
    have hfilter : (inputGateSenderTrace numWires).filter (touches w)
        = [.setupReady w, .onlineReady w] := by
      unfold inputGateSenderTrace inputGateSenderSetupEvents inputGateSenderOnlineEvents
      rw [List.filter_append, List.filter_map, List.filter_map]
      have h1 : ((List.range numWires).filter (touches w ∘ WireEvent.setupReady))
          = [w] := by
        simpa [Function.comp, touches] using range_filter_eq numWires w hw
      have h2 : ((List.range numWires).filter (touches w ∘ WireEvent.onlineReady))
          = [w] := by
        simpa [Function.comp, touches] using range_filter_eq numWires w hw
      rw [h1, h2]
      rfl
    refine ⟨hfilter, ?_, ?_⟩
    · rw [hfilter]
      simp [runEvents, applyEvent, setSetupReady, setOnlineReady, freshFlags]
    · rw [hfilter]
      simp [runEvents, applyEvent, setSetupReady, setOnlineReady, freshFlags]

open Readiness in
/-- Witness for C7: the one-shot and filtered-trace facts at two wires. -/
theorem wire_readiness_one_shot_ordering_witness :
    (0 < 2) ∧
    (inputGateSenderTrace 2).filter (touches 0) = [.setupReady 0, .onlineReady 0] ∧
    (setSetupReady (setSetupReady ⟨false, false⟩).2).1.isSome :=
  ⟨by norm_num, (wire_readiness_one_shot_ordering.2.2 2 0 (by norm_num)).1,
    (wire_readiness_one_shot_ordering.2.1 ⟨false, false⟩).1⟩

/-! ## Hamming-weight gate (`BooleanBEAVYHAMGate`, gate.cpp:558-645), claim C3 -/

namespace HAMGate

/-- A packed bit read into an integer (`uint64_t ai = a.back().Get(j)`). -/
def bitToWord {w : ℕ} (b : Bool) : Word w := if b then 1 else 0

/-- `BooleanBEAVYHAMGate<T>::evaluate_setup_with_context` (gate.cpp:591-604):
the exchanged masked shares give
`public_bits_[i] = (my input secret share ^ my random value)
                 ^ (peer input secret share ^ peer random value)`. -/
def hamPublicBits (lamIn0 rv0 lamIn1 rv1 : ℕ → Bool) (i : ℕ) : Bool :=
  xor (xor (lamIn0 i) (rv0 i)) (xor (lamIn1 i) (rv1 i))

/-- `BooleanBEAVYHAMGate<T>::evaluate_online_with_context` (gate.cpp:620-623):
`a[i] = input public share ^ public_bits_[i]`. -/
def hamMaskedBit (pubIn publicBits : ℕ → Bool) (i : ℕ) : Bool :=
  xor (pubIn i) (publicBits i)

/-- One iteration of the online accumulation loop of
`BooleanBEAVYHAMGate<T>::evaluate_online_with_context` (gate.cpp:624-641) for
one SIMD slot, acting on the output public share accumulator:

```
if (my_id == 0) {
  if (i == 0) acc  = ai + Delta[i] - 2*ai*Delta[i];
  else        acc += ai + Delta[i] - 2*ai*Delta[i];
}
if (i == 0) acc  = lambda[i] * (2*ai - 1);
else        acc += lambda[i] * (2*ai - 1);
```

Note that for party 0 at `i == 0` the second block overwrites the value the
first block just assigned. -/
def hamOnlineStep {w : ℕ} (isParty0 : Bool) (a : ℕ → Bool) (DeltaArith lamArith : ℕ → Word w)
    (acc : Word w) (i : ℕ) : Word w :=
  let aT : Word w := bitToWord (a i)
  let acc1 :=
    if isParty0 then
      if i = 0 then aT + DeltaArith i - 2 * aT * DeltaArith i
      else acc + (aT + DeltaArith i - 2 * aT * DeltaArith i)
    else acc
  if i = 0 then lamArith i * (2 * aT - 1)
  else acc1 + lamArith i * (2 * aT - 1)

/-- The output public share one party computes for one SIMD slot: the
accumulation loop over all `num_wires_` input wires. -/
def hamOnlinePublicShare {w : ℕ} (isParty0 : Bool) (numWires : ℕ)
    (a : ℕ → Bool) (DeltaArith lamArith : ℕ → Word w) : Word w :=
  (List.range numWires).foldl (hamOnlineStep isParty0 a DeltaArith lamArith) 0

/-- Population count of the first `n` plaintext bits, in the ring. -/
def popcountWord {w : ℕ} (bits : ℕ → Bool) (n : ℕ) : Word w :=
  (List.range n).foldl (fun acc i => acc + bitToWord (bits i)) 0

/-- Modelled from the spec (4.8): the intended per-wire accumulation using
the identity `a_arith = p + (1-2p)*s`, with the public part
`ai + Delta - 2*ai*Delta` carried by party 0 for every wire — i.e. the loop
above without the `i == 0` overwrite of party 0's public term. -/
def hamOnlineStepIntended {w : ℕ} (isParty0 : Bool) (a : ℕ → Bool)
    (DeltaArith lamArith : ℕ → Word w) (acc : Word w) (i : ℕ) : Word w :=
  let aT : Word w := bitToWord (a i)
  let pubTerm := aT + DeltaArith i - 2 * aT * DeltaArith i
  let secTerm := lamArith i * (2 * aT - 1)
  if i = 0 then (if isParty0 then pubTerm + secTerm else secTerm)
  else acc + (if isParty0 then pubTerm else 0) + secTerm

/-- The intended output public share of one party for one SIMD slot. -/
def hamOnlinePublicShareIntended {w : ℕ} (isParty0 : Bool) (numWires : ℕ)
    (a : ℕ → Bool) (DeltaArith lamArith : ℕ → Word w) : Word w :=
  (List.range numWires).foldl (hamOnlineStepIntended isParty0 a DeltaArith lamArith) 0

end HAMGate

namespace C3Data

/-- Plaintext input bits: the 16-bit string `0x1234` (wire `i` carries bit
`i`, least significant first); its popcount is 5. -/
def b : ℕ → Bool := fun i => Nat.testBit 0x1234 i

/-- Boolean secret shares of the input wires: all zero for both parties. -/
def lamIn0 : ℕ → Bool := fun _ => false

def lamIn1 : ℕ → Bool := fun _ => false

/-- Input wires' public share, satisfying the Boolean BEAVY wire invariant
`pub = b ^ lamIn0 ^ lamIn1`. -/
def pubIn : ℕ → Bool := fun i => b i

/-- Party 0's random masking bits chosen in the HAM setup: bit set on wire 0. -/
def rv0 : ℕ → Bool := fun i => decide (i = 0)

def rv1 : ℕ → Bool := fun _ => false

/-- Arithmetic public share of the bit-to-arithmetic wires: all zero. -/
def DeltaArith : ℕ → Word 16 := fun _ => 0

/-- Party 0's arithmetic secret shares: `-1` on wire 0 so that
`Delta - lam0 - lam1 = 1 = rv0 ^ rv1` there; zero elsewhere. -/
def lamArith0 : ℕ → Word 16 := fun i => if i = 0 then -1 else 0

def lamArith1 : ℕ → Word 16 := fun _ => 0

/-- The masked public bits the gate works with. -/
def aData : ℕ → Bool :=
  HAMGate.hamMaskedBit pubIn (HAMGate.hamPublicBits lamIn0 rv0 lamIn1 rv1)

end C3Data

open HAMGate C3Data in
/-- C3 (code bug): at a concrete, invariant-respecting input — plaintext bits
`0x1234` over 16 wires, all input shares zero, party 0 masking wire 0 with a
random bit whose bit-to-arithmetic sharing is `Delta = 0`,
`lambda_0 = -1`, `lambda_1 = 0` — the popcount of the input is 5, yet the
online loop of `BooleanBEAVYHAMGate` produces output public shares 4 (party
0) and 0 (party 1): party 0's `i == 0` public term is overwritten by the
unconditional second assignment, so no reconstruction of the output wire
(the secret shares are 0) yields the popcount 5; the spec-modelled intended
loop (without the overwrite) yields shares 5 and 0 on the same input. -/
theorem boolean_beavy_ham_gate_dropped_term :
    (∀ i, i < 16 → pubIn i = xor (b i) (xor (lamIn0 i) (lamIn1 i))) ∧
    (∀ i, i < 16 → DeltaArith i - lamArith0 i - lamArith1 i
        = bitToWord (xor (rv0 i) (rv1 i))) ∧
    popcountWord b 16 = (5 : Word 16) ∧
    hamOnlinePublicShare true 16 aData DeltaArith lamArith0 = (4 : Word 16) ∧
    hamOnlinePublicShare false 16 aData DeltaArith lamArith1 = (0 : Word 16) ∧
    ((4 : Word 16) + 0 ≠ 5 ∧ (4 : Word 16) ≠ 5 ∧ (0 : Word 16) ≠ 5) ∧
    hamOnlinePublicShareIntended true 16 aData DeltaArith lamArith0 = (5 : Word 16) ∧
    hamOnlinePublicShareIntended false 16 aData DeltaArith lamArith1 = (0 : Word 16) := by
  refine ⟨?_, ?_, ?_, ?_, ?_, ⟨?_, ?_, ?_⟩, ?_, ?_⟩ <;> decide

/-! ## FSS gates (`fss/fss_uint64.cpp`), claim C4

`DPF_gen_64` (fss_uint64.cpp:168-170) calls `DCF_gen_seeded_64`, and the
bodies of `DPF_gen_seeded_64`/`DPF_eval_64` (83-166, 172-206) are identical
to those of `DCF_gen_seeded_64`/`DCF_eval_64` (212-295, 301-335), so a single
embedding covers both entry points.  The PRG `G` (`G_ni`/`G_tiny` from
`aes.h`, not among the sources) and the byte-to-ring cast `TO_R_t_64` are
modelled from the spec as parameters: `G` expands a seed into the pieces
`(sL, sR, vL, vR, tL, tR)`, `toR` reads a seed as a ring element.  Seeds are
natural numbers with bitwise XOR; ring values live in an arbitrary
commutative ring (instantiated at `Word 64`).  The bit width is kept generic
(the loop runs over the `N_BITS_64` bits of the input, MSB first).
-/

namespace FSS

/-- The pieces of one PRG expansion `G(s)`: the `S_L/S_R/V_L/V_R/T_L/T_R`
slices of `g_out`. -/
structure GOut (R : Type) where
  sL : ℕ
  sR : ℕ
  vL : R
  vR : R
  tL : Bool
  tR : Bool

/-- A per-level correction word `(s_cw, V_cw, t_cw_l, t_cw_r)` as stored in
the `CW_CHAIN` region of the key. -/
structure CW (R : Type) where
  sCW : ℕ
  vCW : R
  tCWL : Bool
  tCWR : Bool

/-- Running state of the generation loop: both parties' seeds `s0_i`/`s1_i`,
control bits `t0`/`t1`, and the running value `V_alpha`. -/
structure GenState (R : Type) where
  s0 : ℕ
  s1 : ℕ
  t0 : Bool
  t1 : Bool
  vAlpha : R

/-- An FSS key: the party's initial seed (`kb[S_PTR]`), the shared correction
word chain, and the shared final correction word (`LAST_CW`). -/
structure Key (R : Type) where
  seed : ℕ
  cws : List (CW R)
  lastCW : R

variable {R : Type} [CommRing R]

/-- `(t ? -1 : 1)`. -/
def sgn (t : Bool) : R := if t then -1 else 1

/-- `xor_cond_64` (fss_uint64.cpp:20-29): `res = cond ? a ^ b : a`. -/
def xorCond (a b : ℕ) (cond : Bool) : ℕ := if cond then a ^^^ b else a

/-- Seed update of one evaluation step (`L8`/`L10` of `DCF_eval_64`,
fss_uint64.cpp:322/329): expand the current seed, pick the branch given by
the input bit, and XOR the correction seed iff the control bit is set.  The
generation loop performs the same update on each party's seed with the kept
branch (`L18`). -/
def evalStepS (G : ℕ → GOut R) (xi : Bool) (cw : CW R) (s : ℕ) (t : Bool) : ℕ :=
  xorCond (if xi then (G s).sR else (G s).sL) cw.sCW t

/-- Control-bit update of one evaluation step (fss_uint64.cpp:323/330; `L19`
of the generation loop). -/
def evalStepT (G : ℕ → GOut R) (xi : Bool) (cw : CW R) (s : ℕ) (t : Bool) : Bool :=
  xor (if xi then (G s).tR else (G s).tL) (t && (if xi then cw.tCWR else cw.tCWL))

/-- Value contribution of one evaluation step before the `(b?-1:1)` sign
(fss_uint64.cpp:320-321/327-328): `v_branch + t * V_cw`. -/
def evalStepV (G : ℕ → GOut R) (xi : Bool) (cw : CW R) (s : ℕ) (t : Bool) : R :=
  (if xi then (G s).vR else (G s).vL) + (if t then cw.vCW else 0)

/-- The correction word computed at one level of `DCF_gen_seeded_64`
(fss_uint64.cpp:253-284, `L10`-`L16`). -/
def genCW (G : ℕ → GOut R) (β : R) (αi : Bool) (st : GenState R) : CW R :=
  let g0 := G st.s0
  let g1 := G st.s1
  let s0lose := if αi then g0.sL else g0.sR
  let s1lose := if αi then g1.sL else g1.sR
  let v0lose := if αi then g0.vL else g0.vR
  let v1lose := if αi then g1.vL else g1.vR
  { sCW := s0lose ^^^ s1lose
    vCW := sgn st.t1 * (v1lose - v0lose - st.vAlpha) + (if αi then sgn st.t1 * β else 0)
    tCWL := xor (xor (xor g0.tL g1.tL) αi) true
    tCWR := xor (xor g0.tR g1.tR) αi }

/-- The state update of one level of `DCF_gen_seeded_64`
(fss_uint64.cpp:277-289, `L14`, `L18`-`L19`); each party's seed and control
bit advance along the kept (`alpha_bits[i]`) branch, `V_alpha` accumulates
`v0_keep - v1_keep + (t1?-1:1)*V_cw`. -/
def genNext (G : ℕ → GOut R) (β : R) (αi : Bool) (st : GenState R) : GenState R :=
  let cw := genCW G β αi st
  let g0 := G st.s0
  let g1 := G st.s1
  let v0keep := if αi then g0.vR else g0.vL
  let v1keep := if αi then g1.vR else g1.vL
  { s0 := evalStepS G αi cw st.s0 st.t0
    s1 := evalStepS G αi cw st.s1 st.t1
    t0 := evalStepT G αi cw st.s0 st.t0
    t1 := evalStepT G αi cw st.s1 st.t1
    vAlpha := st.vAlpha + (v0keep - v1keep) + sgn st.t1 * cw.vCW }

/-- The main loop of `DCF_gen_seeded_64` (fss_uint64.cpp:244-290) over the
MSB-first bits of `alpha`: emits the correction-word chain and the final
state. -/
def dcfGenLoop (G : ℕ → GOut R) (β : R) : List Bool → GenState R → List (CW R) × GenState R
  | [], st => ([], st)
  | αi :: rest, st =>
    let r := dcfGenLoop G β rest (genNext G β αi st)
    (genCW G β αi st :: r.1, r.2)

/-- The final correction word (`L20`, fss_uint64.cpp:291-292):
`(t1?-1:1) * (TO_R_t(s1) - TO_R_t(s0) - V_alpha)` at the final state. -/
def lastCWOf (toR : ℕ → R) (fin : GenState R) : R :=
  sgn fin.t1 * (toR fin.s1 - toR fin.s0 - fin.vAlpha)

/-- `DCF_gen_seeded_64` (fss_uint64.cpp:212-295): from the initial seeds,
initial control bits `t0 = 0`, `t1 = 1` and `V_alpha = 0`, produce the two
keys; the correction-word chain and the final correction word are shared
between them (`L21`). -/
def dcfGenSeeded (G : ℕ → GOut R) (toR : ℕ → R) (β : R) (αbits : List Bool) (s0 s1 : ℕ) :
    Key R × Key R :=
  let r := dcfGenLoop G β αbits ⟨s0, s1, false, true, 0⟩
  let last := lastCWOf toR r.2
  (⟨s0, r.1, last⟩, ⟨s1, r.1, last⟩)

/-- The main loop of `DCF_eval_64` / `DPF_eval_64` (fss_uint64.cpp:311-332):
walk the input bits MSB first, accumulating `(b?-1:1)*(v_branch + t*V_cw)`
and updating seed and control bit. -/
def dcfEvalLoop (G : ℕ → GOut R) (b : Bool) :
    List Bool → List (CW R) → ℕ → Bool → R → ℕ × Bool × R
  | xi :: xs, cw :: cws, s, t, v =>
    dcfEvalLoop G b xs cws (evalStepS G xi cw s t) (evalStepT G xi cw s t)
      (v + sgn b * evalStepV G xi cw s t)
  | _, _, s, t, v => (s, t, v)

/-- The tail of the evaluation: run the loop and add the final term
`(b?-1:1) * (TO_R_t(s) + t*LAST_CW)` (`L13`, fss_uint64.cpp:333). -/
def evalTail (G : ℕ → GOut R) (toR : ℕ → R) (b : Bool) (xs : List Bool) (cws : List (CW R))
    (lcw : R) (s : ℕ) (t : Bool) (v : R) : R :=
  (dcfEvalLoop G b xs cws s t v).2.2
    + sgn b * (toR (dcfEvalLoop G b xs cws s t v).1
        + (if (dcfEvalLoop G b xs cws s t v).2.1 then lcw else 0))

/-- `DCF_eval_64` / `DPF_eval_64` (fss_uint64.cpp:172-206, 301-335): party
`b` starts from its key seed with control bit `t = b` and value `0`. -/
def dcfEval (G : ℕ → GOut R) (toR : ℕ → R) (b : Bool) (k : Key R) (xbits : List Bool) : R :=
  evalTail G toR b xbits k.cws k.lastCW k.seed b 0

/-- `bit_decomposition_64` (fss_uint64.cpp:12-18):
`bits_array[i] = value & (1 << (N_BITS-i-1))`, i.e. the bits MSB first. -/
def bitDecomposition (N x : ℕ) : List Bool :=
  (List.range N).map fun i => Nat.testBit x (N - 1 - i)

/-- `DPF_gen_64` (fss_uint64.cpp:168-170): delegates to `DCF_gen_seeded_64`
on the bit decomposition of `alpha` (seeds drawn by `random_buffer_64` are
kept as parameters). -/
def dpfGen (G : ℕ → GOut R) (toR : ℕ → R) (β : R) (N α s0 s1 : ℕ) : Key R × Key R :=
  dcfGenSeeded G toR β (bitDecomposition N α) s0 s1

/-- `DPF_eval_64` (fss_uint64.cpp:172-206) on a public input `x_hat`. -/
def dpfEval (G : ℕ → GOut R) (toR : ℕ → R) (N : ℕ) (b : Bool) (k : Key R) (xHat : ℕ) : R :=
  dcfEval G toR b k (bitDecomposition N xHat)

/-- MSB-first lexicographic strict comparison of two bit strings: the
unsigned `x < alpha` on equal-length decompositions. -/
def bitsLt : List Bool → List Bool → Bool
  | x :: xs, a :: ys => (!x && a) || ((x == a) && bitsLt xs ys)
  | _, _ => false

@[simp] theorem genNext_s0 (G : ℕ → GOut R) (β : R) (αi : Bool) (st : GenState R) :
    (genNext G β αi st).s0 = evalStepS G αi (genCW G β αi st) st.s0 st.t0 := rfl

@[simp] theorem genNext_s1 (G : ℕ → GOut R) (β : R) (αi : Bool) (st : GenState R) :
    (genNext G β αi st).s1 = evalStepS G αi (genCW G β αi st) st.s1 st.t1 := rfl

@[simp] theorem genNext_t0 (G : ℕ → GOut R) (β : R) (αi : Bool) (st : GenState R) :
    (genNext G β αi st).t0 = evalStepT G αi (genCW G β αi st) st.s0 st.t0 := rfl

@[simp] theorem genNext_t1 (G : ℕ → GOut R) (β : R) (αi : Bool) (st : GenState R) :
    (genNext G β αi st).t1 = evalStepT G αi (genCW G β αi st) st.s1 st.t1 := rfl

theorem dcfGenLoop_cons (G : ℕ → GOut R) (β : R) (αi : Bool) (αs : List Bool)
    (st : GenState R) :
    dcfGenLoop G β (αi :: αs) st
      = (genCW G β αi st :: (dcfGenLoop G β αs (genNext G β αi st)).1,
          (dcfGenLoop G β αs (genNext G β αi st)).2) := rfl

theorem evalTail_cons (G : ℕ → GOut R) (toR : ℕ → R) (b xi : Bool) (xs : List Bool)
    (cw : CW R) (cws : List (CW R)) (lcw : R) (s : ℕ) (t : Bool) (v : R) :
    evalTail G toR b (xi :: xs) (cw :: cws) lcw s t v
      = evalTail G toR b xs cws lcw (evalStepS G xi cw s t) (evalStepT G xi cw s t)
          (v + sgn b * evalStepV G xi cw s t) := rfl

theorem bitsLt_cons_same (x : Bool) (xs ys : List Bool) :
    bitsLt (x :: xs) (x :: ys) = bitsLt xs ys := by
  cases x <;> simp [bitsLt]

theorem bitsLt_self : ∀ l : List Bool, bitsLt l l = false := by
  intro l
  induction l with
  | nil => rfl
  | cons x xs ih => rw [bitsLt_cons_same]; exact ih

/-- On the kept branch the correction control bit satisfies
`c = t_keep^0 ^ t_keep^1 ^ 1`, so the two parties' control bits stay
complementary. -/
theorem bool_flip_aux : ∀ t1 k0 k1 c : Bool, c = xor (xor k0 k1) true →
    xor k0 ((!t1) && c) = !(xor k1 (t1 && c)) := by decide

/-- On the lost branch the correction control bit satisfies
`c = t_lose^0 ^ t_lose^1`, so the two parties' control bits collapse to the
same value. -/
theorem bool_collapse_aux : ∀ t1 l0 l1 c : Bool, c = xor l0 l1 →
    xor l0 ((!t1) && c) = xor l1 (t1 && c) := by decide

/-- On the lost branch the seed correction collapses the two parties' seeds
to the same value (exactly one control bit applies `s_cw = l0 ^ l1`). -/
theorem xorCond_collapse (l0 l1 : ℕ) (t1 : Bool) :
    xorCond l0 (l0 ^^^ l1) (!t1) = xorCond l1 (l0 ^^^ l1) t1 := by
  cases t1
  · simp [xorCond, OTFlavors.natXorCancelLeft]
  · simp only [Bool.not_true, xorCond, Bool.false_eq_true, if_false, if_true]
    rw [OTFlavors.natXorLeftComm, Nat.xor_self, Nat.xor_zero]

/-- Once the two parties hold identical seed and control bit, the remaining
evaluation contributions cancel: the signed sums are unchanged. -/
theorem evalTail_offpath (G : ℕ → GOut R) (toR : ℕ → R) :
    ∀ (xs : List Bool) (cws : List (CW R)) (lcw : R) (s : ℕ) (t : Bool) (v0 v1 : R),
    evalTail G toR false xs cws lcw s t v0 + evalTail G toR true xs cws lcw s t v1
      = v0 + v1 := by
  intro xs
  induction xs with
  | nil =>
    intro cws lcw s t v0 v1
    simp only [evalTail, dcfEvalLoop, sgn, Bool.false_eq_true, if_false, if_true]
    ring
  | cons xi xs ih =>
    intro cws lcw s t v0 v1
    cases cws with
    | nil =>
      simp only [evalTail, dcfEvalLoop, sgn, Bool.false_eq_true, if_false, if_true]
      ring
    | cons cw cws =>
      rw [evalTail_cons, evalTail_cons, ih]
      simp only [sgn, Bool.false_eq_true, if_false, if_true]
      ring

/-- Main invariant of the DCF construction: starting from a generation state
with complementary control bits and evaluation values summing to the running
`V_alpha`, the two parties' completed evaluations (over the correction words
produced by the rest of the generation) sum to `beta` iff the remaining input
bits are lexicographically below the remaining `alpha` bits. -/
theorem evalTail_onpath (G : ℕ → GOut R) (toR : ℕ → R) (β : R) :
    ∀ (αs xs : List Bool), xs.length = αs.length →
    ∀ (st : GenState R) (v0 v1 : R), st.t0 = !st.t1 → v0 + v1 = st.vAlpha →
    evalTail G toR false xs (dcfGenLoop G β αs st).1 (lastCWOf toR (dcfGenLoop G β αs st).2)
        st.s0 st.t0 v0
      + evalTail G toR true xs (dcfGenLoop G β αs st).1 (lastCWOf toR (dcfGenLoop G β αs st).2)
        st.s1 st.t1 v1
      = (if bitsLt xs αs then β else 0) := by
  intro αs
  induction αs with
  | nil =>
    intro xs hlen st v0 v1 ht hv
    have hxs : xs = [] := List.eq_nil_of_length_eq_zero hlen
    subst hxs
    cases ht1 : st.t1 <;> rw [ht1] at ht <;>
      simp only [dcfGenLoop, evalTail, dcfEvalLoop, lastCWOf, bitsLt, sgn, ht, ht1,
        Bool.not_false, Bool.not_true, Bool.false_eq_true, if_false, if_true] <;>
      linear_combination hv
  | cons αi αs ih =>
    intro xs hlen st v0 v1 ht hv
    cases xs with
    | nil => simp at hlen
    | cons xi xs =>
      have hlen' : xs.length = αs.length := by simpa using hlen
      rw [dcfGenLoop_cons]
      by_cases hxeq : xi = αi
      · -- the input bit agrees with the alpha bit: stay on path
        subst hxeq
        rw [evalTail_cons, evalTail_cons]
        have hflip : evalStepT G xi (genCW G β xi st) st.s0 st.t0
            = !(evalStepT G xi (genCW G β xi st) st.s1 st.t1) := by
          rw [ht]
          cases xi <;>
            exact bool_flip_aux st.t1 _ _ _ (by
              simp [evalStepT, genCW, Bool.xor_comm, Bool.xor_assoc])
        have hsum : (v0 + sgn false * evalStepV G xi (genCW G β xi st) st.s0 st.t0)
            + (v1 + sgn true * evalStepV G xi (genCW G β xi st) st.s1 st.t1)
            = (genNext G β xi st).vAlpha := by
          cases ht1 : st.t1 <;> rw [ht1] at ht <;> cases xi <;>
            simp only [genNext, genCW, evalStepV, sgn, ht, ht1, Bool.not_false,
              Bool.not_true, Bool.false_eq_true, if_false, if_true] <;>
            linear_combination hv
        have h := ih xs hlen' (genNext G β xi st) _ _
          (by rw [genNext_t0, genNext_t1]; exact hflip) hsum
        rw [genNext_s0, genNext_s1, genNext_t0, genNext_t1] at h
        rw [h, bitsLt_cons_same]
      · -- the input bit differs from the alpha bit: diverge off path
        have hxi : xi = !αi := by
          cases xi <;> cases αi <;> simp_all
        subst hxi
        rw [evalTail_cons, evalTail_cons]
        have hS : evalStepS G (!αi) (genCW G β αi st) st.s0 st.t0
            = evalStepS G (!αi) (genCW G β αi st) st.s1 st.t1 := by
          rw [ht]
          cases αi <;>
            · simp only [evalStepS, genCW, Bool.not_true, Bool.not_false, if_true, if_false,
                Bool.false_eq_true, Bool.true_eq_false]
              exact xorCond_collapse _ _ _
        have hT : evalStepT G (!αi) (genCW G β αi st) st.s0 st.t0
            = evalStepT G (!αi) (genCW G β αi st) st.s1 st.t1 := by
          rw [ht]
          cases αi <;>
            exact bool_collapse_aux st.t1 _ _ _ (by
              simp [evalStepT, genCW, Bool.xor_comm, Bool.xor_assoc])
        rw [hS, hT, evalTail_offpath]
        have hlt : bitsLt ((!αi) :: xs) (αi :: αs) = αi := by
          cases αi <;> simp [bitsLt]
        rw [hlt]
        cases ht1 : st.t1 <;> rw [ht1] at ht <;> cases hai : αi <;>
          simp only [evalStepV, genCW, sgn, ht, ht1, Bool.not_false, Bool.not_true,
            Bool.false_eq_true, Bool.true_eq_false, if_false, if_true] <;>
          linear_combination hv

/-- Correctness of the embedded `DCF_gen_seeded_64` + `DCF_eval_64`
(= `DPF_gen_64` + `DPF_eval_64`): the two signed local evaluations are
additive shares of `beta * [x < alpha]` (MSB-first comparison of the two
equal-length bit strings), for every PRG `G` and seed cast `toR`. -/
theorem dcf_additive_shares (G : ℕ → GOut R) (toR : ℕ → R) (β : R)
    (αbits xbits : List Bool) (hlen : xbits.length = αbits.length) (s0 s1 : ℕ) :
    dcfEval G toR false (dcfGenSeeded G toR β αbits s0 s1).1 xbits
      + dcfEval G toR true (dcfGenSeeded G toR β αbits s0 s1).2 xbits
      = (if bitsLt xbits αbits then β else 0) := by
  have h := evalTail_onpath G toR β αbits xbits hlen ⟨s0, s1, false, true, 0⟩ 0 0 rfl
    (by simp)
  simpa [dcfEval, dcfGenSeeded] using h

/-- The two `DPF_eval_64` evaluations under `DPF_gen_64` keys sum to
`beta * [x_hat < alpha]` (unsigned MSB-first comparison) — not to the point
function: `DPF_gen_64` delegates to the DCF key generation. -/
theorem dpf_eval_pair_is_comparison (G : ℕ → GOut R) (toR : ℕ → R) (β : R)
    (N α x s0 s1 : ℕ) :
    dpfEval G toR N false (dpfGen G toR β N α s0 s1).1 x
      + dpfEval G toR N true (dpfGen G toR β N α s0 s1).2 x
      = (if bitsLt (bitDecomposition N x) (bitDecomposition N α) then β else 0) := by
  apply dcf_additive_shares
  simp [bitDecomposition]

theorem bitDecomposition_succ (N x : ℕ) :
    bitDecomposition (N + 1) x = Nat.testBit x N :: bitDecomposition N x := by
  unfold bitDecomposition
  rw [List.range_succ_eq_map]
  simp only [List.map_cons, List.map_map, Nat.sub_zero, Nat.add_sub_cancel]
  congr 1
  apply List.map_congr_left
  intro i _
  have h : N - (i + 1) = N - 1 - i := by omega
  simp [Function.comp, h]

theorem bitDecomposition_mod (N x : ℕ) :
    bitDecomposition N (x % 2 ^ N) = bitDecomposition N x := by
  unfold bitDecomposition
  apply List.map_congr_left
  intro i hi
  have hi : i < N := List.mem_range.mp hi
  rw [Nat.testBit_mod_two_pow]
  have : N - 1 - i < N := by omega
  simp [this]

/-- The MSB-first comparison of the code's bit decompositions is exactly the
unsigned comparison of the two `N`-bit values. -/
theorem bitsLt_eq_decide_lt : ∀ (N x α : ℕ), x < 2 ^ N → α < 2 ^ N →
    bitsLt (bitDecomposition N x) (bitDecomposition N α) = decide (x < α) := by
  intro N
  induction N with
  | zero =>
    intro x α hx hα
    have hx0 : x = 0 := by simpa using hx
    have hα0 : α = 0 := by simpa using hα
    subst hx0
    subst hα0
    rfl
  | succ N ih =>
    intro x α hx hα
    rw [bitDecomposition_succ, bitDecomposition_succ]
    have htail : bitsLt (bitDecomposition N x) (bitDecomposition N α)
        = decide (x % 2 ^ N < α % 2 ^ N) := by
      rw [← bitDecomposition_mod N x, ← bitDecomposition_mod N α]
      exact ih _ _ (Nat.mod_lt _ (Nat.pos_pow_of_pos N (by norm_num)))
        (Nat.mod_lt _ (Nat.pos_pow_of_pos N (by norm_num)))
    show ((!Nat.testBit x N && Nat.testBit α N)
        || ((Nat.testBit x N == Nat.testBit α N)
            && bitsLt (bitDecomposition N x) (bitDecomposition N α)))
        = decide (x < α)
    rw [htail]
    have hdx := Nat.div_add_mod x (2 ^ N)
    have hdα := Nat.div_add_mod α (2 ^ N)
    have hmx : x % 2 ^ N < 2 ^ N := Nat.mod_lt _ (Nat.pos_pow_of_pos N (by norm_num))
    have hmα : α % 2 ^ N < 2 ^ N := Nat.mod_lt _ (Nat.pos_pow_of_pos N (by norm_num))
    have hdivx : x / 2 ^ N < 2 := by
      rw [Nat.div_lt_iff_lt_mul (Nat.pos_pow_of_pos N (by norm_num))]
      calc x < 2 ^ (N + 1) := hx
        _ = 2 ^ N * 2 := by rw [pow_succ]
        _ ≤ 2 * 2 ^ N := by rw [Nat.mul_comm]
    have hdivα : α / 2 ^ N < 2 := by
      rw [Nat.div_lt_iff_lt_mul (Nat.pos_pow_of_pos N (by norm_num))]
      calc α < 2 ^ (N + 1) := hα
        _ = 2 ^ N * 2 := by rw [pow_succ]
        _ ≤ 2 * 2 ^ N := by rw [Nat.mul_comm]
    rw [Nat.testBit_to_div_mod, Nat.testBit_to_div_mod]
    have hbx : x / 2 ^ N % 2 = x / 2 ^ N := Nat.mod_eq_of_lt hdivx
    have hbα : α / 2 ^ N % 2 = α / 2 ^ N := Nat.mod_eq_of_lt hdivα
    rw [hbx, hbα]
    have hdivx2 : x / 2 ^ N = 0 ∨ x / 2 ^ N = 1 :=
      Nat.le_one_iff_eq_zero_or_eq_one.mp (Nat.le_of_lt_succ hdivx)
    have hdivα2 : α / 2 ^ N = 0 ∨ α / 2 ^ N = 1 :=
      Nat.le_one_iff_eq_zero_or_eq_one.mp (Nat.le_of_lt_succ hdivα)
    rcases hdivx2 with hx1 | hx1 <;> rcases hdivα2 with hα1 | hα1 <;>
      rw [hx1, hα1] <;> rw [hx1] at hdx <;> rw [hα1] at hdα <;>
      simp only [Nat.mul_zero, Nat.mul_one, Nat.zero_add] at hdx hdα
    · rw [hdx, hdα]
      simp
    · have h1 : x < 2 ^ N := by rw [← hdx]; exact hmx
      have h2 : 2 ^ N ≤ α := Nat.le.intro hdα
      have hlt : x < α := lt_of_lt_of_le h1 h2
      simp [hlt]
    · have h1 : α < 2 ^ N := by rw [← hdα]; exact hmα
      have h2 : 2 ^ N ≤ x := Nat.le.intro hdx
      have hlt : ¬x < α := Nat.not_lt.mpr (Nat.le_of_lt (lt_of_lt_of_le h1 h2))
      simp [hlt]
    · have key : decide (x % 2 ^ N < α % 2 ^ N) = decide (x < α) := by
        rw [decide_eq_decide]
        constructor
        · intro h
          calc x = 2 ^ N + x % 2 ^ N := hdx.symm
            _ < 2 ^ N + α % 2 ^ N := Nat.add_lt_add_left h _
            _ = α := hdα
        · intro h
          have h2 : 2 ^ N + x % 2 ^ N < 2 ^ N + α % 2 ^ N := by
            rw [hdx, hdα]; exact h
          exact Nat.lt_of_add_lt_add_left h2
      rw [key]
      simp

/-- The `DPF_gen_64` / `DPF_eval_64` pair computes additive shares of the
scaled comparison function `beta * [x_hat < alpha]` (unsigned), for all
`N`-bit inputs. -/
theorem dpf_eval_pair_eq_lt (G : ℕ → GOut R) (toR : ℕ → R) (β : R) (N α x s0 s1 : ℕ)
    (hx : x < 2 ^ N) (hα : α < 2 ^ N) :
    dpfEval G toR N false (dpfGen G toR β N α s0 s1).1 x
      + dpfEval G toR N true (dpfGen G toR β N α s0 s1).2 x
      = (if x < α then β else 0) := by
  rw [dpf_eval_pair_is_comparison, bitsLt_eq_decide_lt N x α hx hα]
  by_cases h : x < α <;> simp [h]

end FSS

namespace C4Data

/-- Modelled from the spec: a concrete instance of the fixed-key AES PRG
expansion (`G_ni`/`G_tiny` from `aes.h` are not among the sources); any
function of the seed works for the correctness (not secrecy) of the
construction. -/
def g64 : ℕ → FSS.GOut (Word 64) := fun s =>
  { sL := 2 * s + 1
    sR := 3 * s + 2
    vL := (s : Word 64)
    vR := (s : Word 64) + 5
    tL := decide (s % 2 = 1)
    tR := decide (s % 3 = 0) }

end C4Data

open FSS in
/-- C4 (code bug): `DPF_gen_64` generates DCF keys — it calls
`DCF_gen_seeded_64` (fss_uint64.cpp:168-170), and the DPF bodies are
identical to the DCF ones — so at the failing input `x_hat = alpha = 123`
the two local evaluations sum to `0` in the 64-bit ring although the claim
(and the header documentation, fss_uint64.h:95) demands
`BETA * [x_hat = alpha] = 1` (`BETA = 1`, fss_uint64.h:28).  Shown here for
the spec-modelled PRG `g64`; by `dpf_eval_pair_eq_lt` the sum equals
`BETA * [x_hat < alpha]` for every PRG. -/
theorem dpf_point_function_claim_fails :
    (dpfEval C4Data.g64 Nat.cast 64 false (dpfGen C4Data.g64 Nat.cast 1 64 123 7 9).1 123
      + dpfEval C4Data.g64 Nat.cast 64 true (dpfGen C4Data.g64 Nat.cast 1 64 123 7 9).2 123
      = (0 : Word 64)) ∧
    (1 : Word 64) * (if (123 : ℕ) = 123 then 1 else 0) ≠ (0 : Word 64) := by
  constructor
  · rw [dpf_eval_pair_is_comparison, bitsLt_self]
    simp
  · haveI : Fact (1 < 2 ^ 64) := ⟨by norm_num⟩
    simp

end MOTION2NX
